import Mathlib

set_option maxHeartbeats 1000000

/-!
Verification of the storage-key derivation, in-memory key-value store,
mutable-mapping overlay and path-query resolver of `xblock/runtime.py`.
-/

/-- Modelled from the spec: the scope granularity enumeration. The type itself
lives in the module `xblock/core.py`, which is not among the sources; spec
section 3 fixes the closed set ALL, TYPE, DEFINITION, USAGE, CHILDREN, PARENT
(`BlockScope` plus the special `Scope.children` / `Scope.parent` values of the
source). -/
inductive Granularity where
  | ALL
  | TYPE
  | DEFINITION
  | USAGE
  | CHILDREN
  | PARENT
deriving DecidableEq

/-- Modelled from the spec: a scope is a pair of a granularity and a per-user
flag (spec section 3); the `Scope` type lives in the missing `xblock/core.py`. -/
structure Scope where
  granularity : Granularity
  user : Bool
deriving DecidableEq

/-- A field descriptor: `ModelType` of the source, declared on a block type or
namespace, carrying a name and a scope. -/
structure ModelType where
  name : String
  scope : Scope
deriving DecidableEq

/-- BlockId of the source: `namedtuple('BlockId', 'usage_id def_id')`. -/
structure BlockId where
  usage_id : String
  def_id : String
deriving DecidableEq

/-- KeyValueStore.Key of the source:
`namedtuple("Key", "scope, student_id, block_scope_id, field_name")`. -/
structure Key where
  scope : Scope
  student_id : Option String
  block_scope_id : Option String
  field_name : String
deriving DecidableEq

/-- The scope-resolution core of `DbModel._key` (src/xblock/runtime.py lines
170-208): given a field's scope, the name being resolved, the block identity,
the block type's name and the acting student, produce the structured storage
key.  CHILDREN and PARENT scopes are keyed by `usage_id` with no student id;
otherwise `block_scope_id` follows the `BlockScope` table and `student_id` is
the acting student exactly when the scope is per-user. -/
def scopeKey (sc : Scope) (name : String) (blockId : BlockId) (clsName : String)
    (studentId : Option String) : Key :=
  match sc.granularity with
  | .CHILDREN => ⟨sc, none, some blockId.usage_id, name⟩
  | .PARENT => ⟨sc, none, some blockId.usage_id, name⟩
  | .ALL => ⟨sc, if sc.user then studentId else none, none, name⟩
  | .USAGE => ⟨sc, if sc.user then studentId else none, some blockId.usage_id, name⟩
  | .DEFINITION => ⟨sc, if sc.user then studentId else none, some blockId.def_id, name⟩
  | .TYPE => ⟨sc, if sc.user then studentId else none, some clsName, name⟩

/-- Key derivation for a field descriptor, as `DbModel._key` performs it when
the name resolves to the given field (the key's `field_name` is the resolved
name, which for a declared field equals the descriptor's name). -/
def derive_key (field : ModelType) (blockId : BlockId) (clsName : String)
    (studentId : Option String) : Key :=
  scopeKey field.scope field.name blockId clsName studentId

theorem scopeKey_scope (sc : Scope) (n : String) (b : BlockId) (c : String)
    (s : Option String) : (scopeKey sc n b c s).scope = sc := by
  obtain ⟨g, u⟩ := sc
  cases g <;> rfl

theorem scopeKey_field_name (sc : Scope) (n : String) (b : BlockId) (c : String)
    (s : Option String) : (scopeKey sc n b c s).field_name = n := by
  obtain ⟨g, u⟩ := sc
  cases g <;> rfl

/-- C1: key derivation (`DbModel._key`) is injective in the field descriptor:
two fields differing in name, scope granularity or per-user flag produce
distinct storage keys, whatever block identities, block type names and acting
user are involved; and it is a deterministic function: identical inputs yield
the identical key. -/
theorem derive_key_distinct_and_deterministic :
    (∀ (f1 f2 : ModelType) (b1 b2 : BlockId) (c1 c2 : String) (s1 s2 : Option String),
      (f1.name ≠ f2.name ∨ f1.scope.granularity ≠ f2.scope.granularity ∨
        f1.scope.user ≠ f2.scope.user) →
      derive_key f1 b1 c1 s1 ≠ derive_key f2 b2 c2 s2) ∧
    (∀ (f1 f2 : ModelType) (b1 b2 : BlockId) (c1 c2 : String) (s1 s2 : Option String),
      f1 = f2 → b1 = b2 → c1 = c2 → s1 = s2 →
      derive_key f1 b1 c1 s1 = derive_key f2 b2 c2 s2) := by
  constructor
  · intro f1 f2 b1 b2 c1 c2 s1 s2 hdiff heq
    rcases hdiff with h | h | h
    · apply h
      have h1 := scopeKey_field_name f1.scope f1.name b1 c1 s1
      have h2 := scopeKey_field_name f2.scope f2.name b2 c2 s2
      calc f1.name = (derive_key f1 b1 c1 s1).field_name := h1.symm
        _ = (derive_key f2 b2 c2 s2).field_name := by rw [heq]
        _ = f2.name := h2
    · apply h
      have h1 := scopeKey_scope f1.scope f1.name b1 c1 s1
      have h2 := scopeKey_scope f2.scope f2.name b2 c2 s2
      have : (derive_key f1 b1 c1 s1).scope = (derive_key f2 b2 c2 s2).scope := by rw [heq]
      rw [derive_key, derive_key, h1, h2] at this
      rw [this]
    · apply h
      have h1 := scopeKey_scope f1.scope f1.name b1 c1 s1
      have h2 := scopeKey_scope f2.scope f2.name b2 c2 s2
      have : (derive_key f1 b1 c1 s1).scope = (derive_key f2 b2 c2 s2).scope := by rw [heq]
      rw [derive_key, derive_key, h1, h2] at this
      rw [this]
  · intro f1 f2 b1 b2 c1 c2 s1 s2 hf hb hc hs
    rw [hf, hb, hc, hs]

/-- Witness for C1 at concrete inputs: two fields differing only in name get
distinct keys, and repeating the very same inputs reproduces the key. -/
theorem derive_key_distinct_and_deterministic_witness :
    derive_key ⟨"score", ⟨.USAGE, true⟩⟩ ⟨"u1", "d1"⟩ "Thumbs" (some "bob") ≠
      derive_key ⟨"votes", ⟨.USAGE, true⟩⟩ ⟨"u1", "d1"⟩ "Thumbs" (some "bob") ∧
    derive_key ⟨"score", ⟨.USAGE, true⟩⟩ ⟨"u1", "d1"⟩ "Thumbs" (some "bob") =
      derive_key ⟨"score", ⟨.USAGE, true⟩⟩ ⟨"u1", "d1"⟩ "Thumbs" (some "bob") :=
  ⟨derive_key_distinct_and_deterministic.1 ⟨"score", ⟨.USAGE, true⟩⟩
      ⟨"votes", ⟨.USAGE, true⟩⟩ ⟨"u1", "d1"⟩ ⟨"u1", "d1"⟩ "Thumbs" "Thumbs"
      (some "bob") (some "bob") (Or.inl (by decide)),
    derive_key_distinct_and_deterministic.2 ⟨"score", ⟨.USAGE, true⟩⟩
      ⟨"score", ⟨.USAGE, true⟩⟩ ⟨"u1", "d1"⟩ ⟨"u1", "d1"⟩ "Thumbs" "Thumbs"
      (some "bob") (some "bob") rfl rfl rfl rfl⟩

/-- C4: for a field of CHILDREN or PARENT granularity, `DbModel._key` sets
`block_scope_id` to the block's `usage_id` and `student_id` to null, whatever
the field's per-user flag. -/
theorem derive_key_children_parent (f : ModelType) (b : BlockId) (c : String)
    (s : Option String)
    (h : f.scope.granularity = .CHILDREN ∨ f.scope.granularity = .PARENT) :
    (derive_key f b c s).block_scope_id = some b.usage_id ∧
    (derive_key f b c s).student_id = none := by
  obtain ⟨n, g, u⟩ := f
  rcases h with h | h <;>
    · simp only [Scope.granularity] at h
      subst h
      exact ⟨rfl, rfl⟩

/-- Witness for C4: a per-user CHILDREN field on a concrete block. -/
theorem derive_key_children_parent_witness :
    (derive_key ⟨"children", ⟨.CHILDREN, true⟩⟩ ⟨"u7", "d7"⟩ "Seq" (some "eve")).block_scope_id
        = some "u7" ∧
    (derive_key ⟨"children", ⟨.CHILDREN, true⟩⟩ ⟨"u7", "d7"⟩ "Seq" (some "eve")).student_id
        = none :=
  derive_key_children_parent ⟨"children", ⟨.CHILDREN, true⟩⟩ ⟨"u7", "d7"⟩ "Seq"
    (some "eve") (Or.inl rfl)

/-- C5: for two block identities differing only in `usage_id`, a
USAGE-granularity field derives distinct keys while a DEFINITION-granularity
field derives the same key. -/
theorem derive_key_usage_vs_definition (n : String) (u : Bool) (b1 b2 : BlockId)
    (c : String) (s : Option String)
    (hu : b1.usage_id ≠ b2.usage_id) (hd : b1.def_id = b2.def_id) :
    derive_key ⟨n, ⟨.USAGE, u⟩⟩ b1 c s ≠ derive_key ⟨n, ⟨.USAGE, u⟩⟩ b2 c s ∧
    derive_key ⟨n, ⟨.DEFINITION, u⟩⟩ b1 c s = derive_key ⟨n, ⟨.DEFINITION, u⟩⟩ b2 c s := by
  constructor
  · intro heq
    apply hu
    have := congrArg Key.block_scope_id heq
    simpa [derive_key, scopeKey] using this
  · simp [derive_key, scopeKey, hd]

/-- Witness for C5 at concrete block identities sharing a definition id. -/
theorem derive_key_usage_vs_definition_witness :
    derive_key ⟨"n", ⟨.USAGE, false⟩⟩ ⟨"u1", "d"⟩ "T" none ≠
      derive_key ⟨"n", ⟨.USAGE, false⟩⟩ ⟨"u2", "d"⟩ "T" none ∧
    derive_key ⟨"n", ⟨.DEFINITION, false⟩⟩ ⟨"u1", "d"⟩ "T" none =
      derive_key ⟨"n", ⟨.DEFINITION, false⟩⟩ ⟨"u2", "d"⟩ "T" none :=
  derive_key_usage_vs_definition "n" false ⟨"u1", "d"⟩ ⟨"u2", "d"⟩ "T" none
    (by decide) rfl

/-- Python exception model: the only exception kind raised by the embedded
code paths is `KeyError` (carrying the offending key's text). -/
inductive PyErr where
  | keyError (msg : String)
deriving DecidableEq

/-- Association-list model of a Python dict: lookup returns the value at the
first (unique) matching key. -/
def alistLookup {κ α : Type} [DecidableEq κ] : List (κ × α) → κ → Option α
  | [], _ => none
  | (k0, v0) :: rest, k => if k0 = k then some v0 else alistLookup rest k

/-- Association-list model of Python dict assignment `d[k] = v`: replace the
value in place when the key is present, append the binding otherwise. -/
def alistInsert {κ α : Type} [DecidableEq κ] : List (κ × α) → κ → α → List (κ × α)
  | [], k, v => [(k, v)]
  | (k0, v0) :: rest, k, v =>
    if k0 = k then (k0, v) :: rest else (k0, v0) :: alistInsert rest k v

/-- Association-list model of Python dict deletion `del d[k]`. -/
def alistErase {κ α : Type} [DecidableEq κ] : List (κ × α) → κ → List (κ × α)
  | [], _ => []
  | (k0, v0) :: rest, k => if k0 = k then rest else (k0, v0) :: alistErase rest k

theorem alistLookup_insert_self {κ α : Type} [DecidableEq κ] (d : List (κ × α))
    (k : κ) (v : α) : alistLookup (alistInsert d k v) k = some v := by
  induction d with
  | nil => simp [alistInsert, alistLookup]
  | cons hd tl ih =>
    obtain ⟨k0, v0⟩ := hd
    by_cases h : k0 = k <;> simp [alistInsert, alistLookup, h, ih]

theorem alistLookup_insert_ne {κ α : Type} [DecidableEq κ] (d : List (κ × α))
    {k' k : κ} (v : α) (h : k' ≠ k) :
    alistLookup (alistInsert d k' v) k = alistLookup d k := by
  induction d with
  | nil => simp [alistInsert, alistLookup, h]
  | cons hd tl ih =>
    obtain ⟨k0, v0⟩ := hd
    by_cases h0 : k0 = k'
    · subst h0
      simp [alistInsert, alistLookup, h]
    · simp only [alistInsert, if_neg h0]
      by_cases h1 : k0 = k
      · simp [alistLookup, h1]
      · simp [alistLookup, h1, ih]

theorem alistInsert_of_not_mem {κ α : Type} [DecidableEq κ] (d : List (κ × α))
    {k : κ} (v : α) (h : k ∉ d.map Prod.fst) :
    alistInsert d k v = d ++ [(k, v)] := by
  induction d with
  | nil => rfl
  | cons hd tl ih =>
    obtain ⟨k0, v0⟩ := hd
    simp only [List.map_cons, List.mem_cons] at h
    push_neg at h
    simp [alistInsert, Ne.symm h.1, ih h.2]

/-- The granularity tag that `MemoryKeyValueStore.actual_key` puts in front of
the bucket key (src lines 85-90): the `children`/`parent` sentinels first, else
the list `["usage", "definition", "type", "all"]` indexed by the scope's block
granularity. -/
def scopeTag : Granularity → String
  | .CHILDREN => "children"
  | .PARENT => "parent"
  | .USAGE => "usage"
  | .DEFINITION => "definition"
  | .TYPE => "type"
  | .ALL => "all"

/-- The optional `block_scope_id` component: appended whenever it `is not None`
(src line 92). -/
def optPart : Option String → List String
  | none => []
  | some b => [b]

/-- The optional `student_id` component: appended when truthy, so a `None` and
an empty string are both skipped (src line 94). -/
def studentPart : Option String → List String
  | none => []
  | some s => if s = "" then [] else [s]

/-- The component list `k` that `actual_key` builds before joining. -/
def keyParts (key : Key) : List String :=
  scopeTag key.scope.granularity :: (optPart key.block_scope_id ++ studentPart key.student_id)

/-- Python's `".".join` on a list of strings. -/
def joinDot : List String → String
  | [] => ""
  | [s] => s
  | s :: t :: rest => s ++ "." ++ joinDot (t :: rest)

namespace MemoryKeyValueStore

/-- The in-memory database `self.d`: a dict from bucket string to a dict from
field name to value. -/
abbrev Store (V : Type) := List (String × List (String × V))

/-- MemoryKeyValueStore.actual_key (src lines 83-96). -/
def actual_key (key : Key) : String := joinDot (keyParts key)

/-- MemoryKeyValueStore.get (src lines 98-99): `self.d[ak][field_name]`, each
subscript raising `KeyError` when absent. -/
def get {V : Type} (d : Store V) (key : Key) : Except PyErr V :=
  match alistLookup d (actual_key key) with
  | none => .error (.keyError (actual_key key))
  | some bucket =>
    match alistLookup bucket key.field_name with
    | none => .error (.keyError key.field_name)
    | some v => .ok v

/-- MemoryKeyValueStore.set (src lines 101-103):
`self.d.setdefault(ak, dict())[field_name] = value`. -/
def set {V : Type} (d : Store V) (key : Key) (v : V) : Store V :=
  alistInsert d (actual_key key)
    (alistInsert ((alistLookup d (actual_key key)).getD []) key.field_name v)

/-- MemoryKeyValueStore.delete (src lines 105-106): `del self.d[ak][field_name]`,
each subscript raising `KeyError` when absent. -/
def delete {V : Type} (d : Store V) (key : Key) : Except PyErr (Store V) :=
  match alistLookup d (actual_key key) with
  | none => .error (.keyError (actual_key key))
  | some bucket =>
    match alistLookup bucket key.field_name with
    | none => .error (.keyError key.field_name)
    | some _ => .ok (alistInsert d (actual_key key) (alistErase bucket key.field_name))

/-- MemoryKeyValueStore.has (src lines 108-109):
`key.field_name in self.d[ak]` -- the subscript on `self.d` raises `KeyError`
when the bucket is absent. -/
def has {V : Type} (d : Store V) (key : Key) : Except PyErr Bool :=
  match alistLookup d (actual_key key) with
  | none => .error (.keyError (actual_key key))
  | some bucket => .ok (alistLookup bucket key.field_name).isSome

/-- MemoryKeyValueStore.set_many (src lines 116-126): calls `set` once per
entry of the update dict. -/
def set_many {V : Type} (d : Store V) (pairs : List (Key × V)) : Store V :=
  pairs.foldl (fun acc kv => set acc kv.1 kv.2) d

end MemoryKeyValueStore

/-- C3: evaluation of the code at the failing input: on an empty store, `has`
for a USAGE-scoped key raises `KeyError("usage.u")` (because
`self.d[self.actual_key(key)]` subscripts an absent bucket) instead of
returning false. -/
theorem has_raises_on_missing_bucket :
    MemoryKeyValueStore.has ([] : MemoryKeyValueStore.Store Nat)
      ⟨⟨.USAGE, false⟩, none, some "u", "f"⟩ = .error (.keyError "usage.u") := rfl

/-- C6 counterexample: two structured keys that differ in both `block_scope_id`
and `student_id` (identifiers are arbitrary opaque strings, here containing the
"." separator) are sent by `actual_key` to the same bucket string
"usage.a.b". -/
theorem actual_key_cross_scope_collision :
    MemoryKeyValueStore.actual_key ⟨⟨.USAGE, false⟩, some "b", some "a", "f"⟩ =
      MemoryKeyValueStore.actual_key ⟨⟨.USAGE, false⟩, none, some "a.b", "f"⟩ ∧
    (⟨⟨.USAGE, false⟩, some "b", some "a", "f"⟩ : Key).block_scope_id ≠
      (⟨⟨.USAGE, false⟩, none, some "a.b", "f"⟩ : Key).block_scope_id ∧
    (⟨⟨.USAGE, false⟩, some "b", some "a", "f"⟩ : Key).student_id ≠
      (⟨⟨.USAGE, false⟩, none, some "a.b", "f"⟩ : Key).student_id :=
  ⟨rfl, by decide, by decide⟩

/-- A string with no occurrence of the bucket separator. -/
abbrev dotFree (s : String) : Prop := '.' ∉ s.data

/-- Wellformedness of an optional identifier: when present it is nonempty and
free of the "." separator. -/
def idOk : Option String → Prop
  | none => True
  | some b => b ≠ "" ∧ dotFree b

theorem dotChain_inj : ∀ (u v x y : List Char), '.' ∉ u → '.' ∉ v →
    u ++ '.' :: x = v ++ '.' :: y → u = v ∧ x = y := by
  intro u
  induction u with
  | nil =>
    intro v x y _ hv h
    cases v with
    | nil => simpa using h
    | cons d v' =>
      simp only [List.nil_append, List.cons_append, List.cons.injEq] at h
      obtain ⟨h1, _⟩ := h
      subst h1
      exact absurd (List.mem_cons_self _ _) hv
  | cons c u' ih =>
    intro v x y hu hv h
    cases v with
    | nil =>
      simp only [List.cons_append, List.nil_append, List.cons.injEq] at h
      obtain ⟨h1, _⟩ := h
      subst h1
      exact absurd (List.mem_cons_self _ _) hu
    | cons d v' =>
      simp only [List.cons_append, List.cons.injEq] at h
      obtain ⟨h1, h2⟩ := h
      subst h1
      have hu' : '.' ∉ u' := fun hm => hu (List.mem_cons_of_mem _ hm)
      have hv' : '.' ∉ v' := fun hm => hv (List.mem_cons_of_mem _ hm)
      obtain ⟨e1, e2⟩ := ih v' x y hu' hv' h2
      exact ⟨by rw [e1], e2⟩

theorem joinDot_data_cons (s t : String) (r : List String) :
    (joinDot (s :: t :: r)).data = s.data ++ '.' :: (joinDot (t :: r)).data := by
  show (s ++ "." ++ joinDot (t :: r)).data = _
  rw [String.data_append, String.data_append, List.append_assoc]
  rfl

theorem joinDot_inj : ∀ (l1 l2 : List String),
    (∀ s ∈ l1, s ≠ "" ∧ dotFree s) → (∀ s ∈ l2, s ≠ "" ∧ dotFree s) →
    joinDot l1 = joinDot l2 → l1 = l2 := by
  intro l1
  induction l1 with
  | nil =>
    intro l2 _ h2 h
    cases l2 with
    | nil => rfl
    | cons t q =>
      exfalso
      cases q with
      | nil => exact (h2 t (List.mem_cons_self _ _)).1 h.symm
      | cons w q' =>
        have hd := congrArg String.data h
        rw [joinDot_data_cons] at hd
        have h2' := hd.symm
        rw [show (joinDot []).data = [] from rfl, List.append_eq_nil] at h2'
        exact List.cons_ne_nil _ _ h2'.2
  | cons s r ih =>
    intro l2 h1 h2 h
    cases l2 with
    | nil =>
      exfalso
      cases r with
      | nil => exact (h1 s (List.mem_cons_self _ _)).1 h
      | cons a r' =>
        have hd := congrArg String.data h
        rw [joinDot_data_cons] at hd
        rw [show (joinDot []).data = [] from rfl, List.append_eq_nil] at hd
        exact List.cons_ne_nil _ _ hd.2
    | cons t q =>
      cases r with
      | nil =>
        cases q with
        | nil =>
          have : s = t := h
          rw [this]
        | cons w q' =>
          exfalso
          have hd := congrArg String.data h
          rw [joinDot_data_cons] at hd
          have : '.' ∈ s.data := by
            rw [show (joinDot [s]).data = s.data from rfl] at hd
            rw [hd]
            exact List.mem_append_right _ (List.mem_cons_self _ _)
          exact (h1 s (List.mem_cons_self _ _)).2 this
      | cons a r' =>
        cases q with
        | nil =>
          exfalso
          have hd := congrArg String.data h
          rw [joinDot_data_cons] at hd
          have : '.' ∈ t.data := by
            rw [show (joinDot [t]).data = t.data from rfl] at hd
            rw [← hd]
            exact List.mem_append_right _ (List.mem_cons_self _ _)
          exact (h2 t (List.mem_cons_self _ _)).2 this
        | cons w q' =>
          have hd := congrArg String.data h
          rw [joinDot_data_cons, joinDot_data_cons] at hd
          obtain ⟨e1, e2⟩ := dotChain_inj s.data t.data _ _
            (h1 s (List.mem_cons_self _ _)).2 (h2 t (List.mem_cons_self _ _)).2 hd
          have hs : s = t := String.ext e1
          have hr : joinDot (a :: r') = joinDot (w :: q') := String.ext e2
          have htails := ih (w :: q')
            (fun x hx => h1 x (List.mem_cons_of_mem _ hx))
            (fun x hx => h2 x (List.mem_cons_of_mem _ hx)) hr
          rw [hs, htails]

theorem scopeTag_ok (g : Granularity) : scopeTag g ≠ "" ∧ dotFree (scopeTag g) := by
  cases g <;> exact ⟨by decide, by decide⟩

theorem scopeTag_inj {g1 g2 : Granularity} (h : scopeTag g1 = scopeTag g2) :
    g1 = g2 := by
  cases g1 <;> cases g2 <;> first | rfl | exact absurd h (by decide)

theorem studentPart_inj {s1 s2 : Option String} (h1 : idOk s1) (h2 : idOk s2)
    (h : studentPart s1 = studentPart s2) : s1 = s2 := by
  cases s1 with
  | none =>
    cases s2 with
    | none => rfl
    | some v =>
      have h2' : v ≠ "" ∧ dotFree v := h2
      simp only [studentPart, if_neg h2'.1] at h
      exact absurd h (by simp)
  | some u =>
    have h1' : u ≠ "" ∧ dotFree u := h1
    cases s2 with
    | none =>
      simp only [studentPart, if_neg h1'.1] at h
      exact absurd h (by simp)
    | some v =>
      have h2' : v ≠ "" ∧ dotFree v := h2
      simp only [studentPart, if_neg h1'.1, if_neg h2'.1, List.cons.injEq] at h
      rw [h.1]

theorem keyParts_ok (k : Key) (hb : idOk k.block_scope_id) (hs : idOk k.student_id) :
    ∀ s ∈ keyParts k, s ≠ "" ∧ dotFree s := by
  intro s hmem
  simp only [keyParts, List.mem_cons, List.mem_append] at hmem
  rcases hmem with h | h | h
  · rw [h]; exact scopeTag_ok _
  · cases hbs : k.block_scope_id with
    | none => rw [hbs] at h; simp [optPart] at h
    | some b =>
      rw [hbs] at h hb
      have hb' : b ≠ "" ∧ dotFree b := hb
      simp only [optPart, List.mem_singleton] at h
      rw [h]; exact hb'
  · cases hss : k.student_id with
    | none => rw [hss] at h; simp [studentPart] at h
    | some v =>
      rw [hss] at h hs
      have hs' : v ≠ "" ∧ dotFree v := hs
      simp only [studentPart, if_neg hs'.1, List.mem_singleton] at h
      rw [h]; exact hs'

/-- C6 amended: `actual_key` is collision-free on wellformed keys: if both
identifiers, when present, are nonempty and contain no "." separator, and
`block_scope_id` is absent exactly when the granularity is ALL (as key
derivation guarantees), then two keys differing in scope granularity,
`block_scope_id` or `student_id` get distinct bucket strings. -/
theorem actual_key_injective (k1 k2 : Key)
    (h1b : idOk k1.block_scope_id) (h1s : idOk k1.student_id)
    (h2b : idOk k2.block_scope_id) (h2s : idOk k2.student_id)
    (ha1 : k1.block_scope_id = none ↔ k1.scope.granularity = .ALL)
    (ha2 : k2.block_scope_id = none ↔ k2.scope.granularity = .ALL)
    (hdiff : k1.scope.granularity ≠ k2.scope.granularity ∨
      k1.block_scope_id ≠ k2.block_scope_id ∨ k1.student_id ≠ k2.student_id) :
    MemoryKeyValueStore.actual_key k1 ≠ MemoryKeyValueStore.actual_key k2 := by
  intro h
  have hparts : keyParts k1 = keyParts k2 :=
    joinDot_inj _ _ (keyParts_ok k1 h1b h1s) (keyParts_ok k2 h2b h2s) h
  simp only [keyParts, List.cons.injEq] at hparts
  obtain ⟨htag, hrest⟩ := hparts
  have hg : k1.scope.granularity = k2.scope.granularity := scopeTag_inj htag
  have hbs_sid : k1.block_scope_id = k2.block_scope_id ∧
      k1.student_id = k2.student_id := by
    cases hbs1 : k1.block_scope_id with
    | none =>
      have hbs2 : k2.block_scope_id = none :=
        ha2.mpr (hg.symm.trans (ha1.mp hbs1)).symm.symm
      rw [hbs1, hbs2] at hrest
      simp only [optPart, List.nil_append] at hrest
      exact ⟨by rw [hbs2], studentPart_inj h1s h2s hrest⟩
    | some b1 =>
      cases hbs2 : k2.block_scope_id with
      | none =>
        exfalso
        have hnone : k1.block_scope_id = none :=
          ha1.mpr (hg.trans (ha2.mp hbs2))
        rw [hbs1] at hnone
        exact Option.some_ne_none b1 hnone
      | some b2 =>
        rw [hbs1, hbs2] at hrest
        simp only [optPart, List.singleton_append, List.cons.injEq] at hrest
        exact ⟨by rw [hrest.1], studentPart_inj h1s h2s hrest.2⟩
  rcases hdiff with hd | hd | hd
  · exact hd hg
  · exact hd hbs_sid.1
  · exact hd hbs_sid.2

/-- Witness for the amended C6 at concrete wellformed keys differing in
granularity. -/
theorem actual_key_injective_witness :
    MemoryKeyValueStore.actual_key ⟨⟨.USAGE, false⟩, none, some "u1", "f"⟩ ≠
      MemoryKeyValueStore.actual_key ⟨⟨.DEFINITION, false⟩, none, some "u1", "f"⟩ :=
  actual_key_injective ⟨⟨.USAGE, false⟩, none, some "u1", "f"⟩
    ⟨⟨.DEFINITION, false⟩, none, some "u1", "f"⟩
    ⟨by decide, by decide⟩ trivial ⟨by decide, by decide⟩ trivial
    (iff_of_false (by decide) (by decide)) (iff_of_false (by decide) (by decide))
    (Or.inl (by decide))

/-- A namespace attached to a block type: exposes its own ordered field
descriptors (the fields found on `type(namespace)` in the source). -/
structure NamespaceCls where
  fields : List ModelType

/-- The block type metadata `DbModel` introspects: the class `__name__`, its own
declared fields, and — when the class has a `namespaces` attribute at all —
the attached namespaces in declaration order. -/
structure BlockCls where
  name : String
  fields : List ModelType
  namespaces : Option (List NamespaceCls)

/-- DbModel (src lines 131-248): holds the key-value store contents, the block
class, the acting student id and the block id. -/
structure DbModel (V : Type) where
  kvs : MemoryKeyValueStore.Store V
  block_cls : BlockCls
  student_id : Option String
  block_id : BlockId

/-- DbModel._getfield (src lines 143-168): the block type's own fields first;
if the class has no `namespaces` attribute the lookup fails; otherwise the
first namespace (in declaration order) owning a field of that name wins;
failure raises `KeyError(name)`. -/
def getfield (cls : BlockCls) (nm : String) : Except PyErr ModelType :=
  match cls.fields.find? (fun f => f.name == nm) with
  | some f => .ok f
  | none =>
    match cls.namespaces with
    | none => .error (.keyError nm)
    | some nss =>
      match nss.findSome? (fun ns => ns.fields.find? (fun f => f.name == nm)) with
      | some f => .ok f
      | none => .error (.keyError nm)

namespace DbModel

/-- DbModel._key (src lines 170-208): resolve the field, then build the
structured key from its scope; the key's `field_name` is the name being
resolved. -/
def key {V : Type} (m : DbModel V) (nm : String) : Except PyErr Key :=
  match getfield m.block_cls nm with
  | .error e => .error e
  | .ok f => .ok (scopeKey f.scope nm m.block_id m.block_cls.name m.student_id)

/-- DbModel.__getitem__ (src lines 210-211). -/
def getitem {V : Type} (m : DbModel V) (nm : String) : Except PyErr V :=
  match key m nm with
  | .error e => .error e
  | .ok k => MemoryKeyValueStore.get m.kvs k

/-- DbModel.__setitem__ (src lines 213-214). -/
def setitem {V : Type} (m : DbModel V) (nm : String) (v : V) : Except PyErr (DbModel V) :=
  match key m nm with
  | .error e => .error e
  | .ok k => .ok {m with kvs := MemoryKeyValueStore.set m.kvs k v}

/-- DbModel.__delitem__ (src lines 216-217). -/
def delitem {V : Type} (m : DbModel V) (nm : String) : Except PyErr (DbModel V) :=
  match key m nm with
  | .error e => .error e
  | .ok k =>
    match MemoryKeyValueStore.delete m.kvs k with
    | .error e => .error e
    | .ok d => .ok {m with kvs := d}

/-- The body of DbModel.__contains__'s `try` block:
`self._kvs.has(self._key(name))`. -/
def hasKV {V : Type} (m : DbModel V) (nm : String) : Except PyErr Bool :=
  match key m nm with
  | .error e => .error e
  | .ok k => MemoryKeyValueStore.has m.kvs k

/-- DbModel.__contains__ (src lines 225-229): any `KeyError` is swallowed and
turned into `False`. -/
def contains {V : Type} (m : DbModel V) (nm : String) : Bool :=
  match hasKV m nm with
  | .ok b => b
  | .error _ => false

end DbModel

/-- The name is declared neither on the block type nor on any attached
namespace. -/
def fieldUndeclared (cls : BlockCls) (nm : String) : Prop :=
  (∀ f ∈ cls.fields, f.name ≠ nm) ∧
  (∀ ns ∈ cls.namespaces.getD [], ∀ f ∈ ns.fields, f.name ≠ nm)

theorem getfield_undeclared (cls : BlockCls) (nm : String)
    (h : fieldUndeclared cls nm) : getfield cls nm = .error (.keyError nm) := by
  have hfind : cls.fields.find? (fun f => f.name == nm) = none := by
    rw [List.find?_eq_none]
    intro f hf
    simpa using h.1 f hf
  cases hns : cls.namespaces with
  | none => simp [getfield, hfind, hns]
  | some nss =>
    have hfs : nss.findSome? (fun ns => ns.fields.find? (fun f => f.name == nm)) = none := by
      rw [List.findSome?_eq_none_iff]
      intro ns hns'
      rw [List.find?_eq_none]
      intro f hf
      have := h.2 ns (by rw [hns]; simpa using hns')
      simpa using this f hf
    simp [getfield, hfind, hns, hfs]

/-- C7: on a name declared neither on the block type nor on any namespace, the
overlay's get, set and delete all fail with the propagated `KeyError(name)`
raised by field resolution, while `contains` returns false instead of
raising. -/
theorem dbmodel_unknown_field {V : Type} (m : DbModel V) (nm : String) (v : V)
    (h : fieldUndeclared m.block_cls nm) :
    DbModel.getitem m nm = .error (.keyError nm) ∧
    DbModel.setitem m nm v = .error (.keyError nm) ∧
    DbModel.delitem m nm = .error (.keyError nm) ∧
    DbModel.contains m nm = false := by
  have hk : DbModel.key m nm = .error (.keyError nm) := by
    simp [DbModel.key, getfield_undeclared m.block_cls nm h]
  refine ⟨?_, ?_, ?_, ?_⟩ <;>
    simp [DbModel.getitem, DbModel.setitem, DbModel.delitem, DbModel.contains,
      DbModel.hasKV, hk]

/-- Witness for C7: the name "z" on a block class declaring only "x" (own) and
"y" (namespace). -/
theorem dbmodel_unknown_field_witness :
    DbModel.getitem
        (⟨[], ⟨"T", [⟨"x", ⟨.USAGE, false⟩⟩], some [⟨[⟨"y", ⟨.USAGE, false⟩⟩]⟩]⟩,
          none, ⟨"u", "d"⟩⟩ : DbModel Nat) "z" = .error (.keyError "z") ∧
    DbModel.setitem
        (⟨[], ⟨"T", [⟨"x", ⟨.USAGE, false⟩⟩], some [⟨[⟨"y", ⟨.USAGE, false⟩⟩]⟩]⟩,
          none, ⟨"u", "d"⟩⟩ : DbModel Nat) "z" 0 = .error (.keyError "z") ∧
    DbModel.delitem
        (⟨[], ⟨"T", [⟨"x", ⟨.USAGE, false⟩⟩], some [⟨[⟨"y", ⟨.USAGE, false⟩⟩]⟩]⟩,
          none, ⟨"u", "d"⟩⟩ : DbModel Nat) "z" = .error (.keyError "z") ∧
    DbModel.contains
        (⟨[], ⟨"T", [⟨"x", ⟨.USAGE, false⟩⟩], some [⟨[⟨"y", ⟨.USAGE, false⟩⟩]⟩]⟩,
          none, ⟨"u", "d"⟩⟩ : DbModel Nat) "z" = false :=
  dbmodel_unknown_field
    (⟨[], ⟨"T", [⟨"x", ⟨.USAGE, false⟩⟩], some [⟨[⟨"y", ⟨.USAGE, false⟩⟩]⟩]⟩,
      none, ⟨"u", "d"⟩⟩ : DbModel Nat) "z" 0 ⟨by decide, by decide⟩

theorem mem_get_set_self {V : Type} (d : MemoryKeyValueStore.Store V) (k : Key)
    (v : V) : MemoryKeyValueStore.get (MemoryKeyValueStore.set d k v) k = .ok v := by
  simp [MemoryKeyValueStore.get, MemoryKeyValueStore.set, alistLookup_insert_self]

theorem mem_get_set_other {V : Type} (d : MemoryKeyValueStore.Store V)
    (k k' : Key) (v v' : V) (hfn : k'.field_name ≠ k.field_name)
    (hget : MemoryKeyValueStore.get d k = .ok v) :
    MemoryKeyValueStore.get (MemoryKeyValueStore.set d k' v') k = .ok v := by
  by_cases hak : MemoryKeyValueStore.actual_key k' = MemoryKeyValueStore.actual_key k
  · cases hb : alistLookup d (MemoryKeyValueStore.actual_key k) with
    | none => simp [MemoryKeyValueStore.get, hb] at hget
    | some b =>
      cases hf : alistLookup b k.field_name with
      | none => simp [MemoryKeyValueStore.get, hb, hf] at hget
      | some w =>
        have hw : w = v := by simpa [MemoryKeyValueStore.get, hb, hf] using hget
        subst hw
        simp [MemoryKeyValueStore.get, MemoryKeyValueStore.set, hak, hb,
          alistLookup_insert_self, alistLookup_insert_ne _ _ hfn, hf]
  · simp only [MemoryKeyValueStore.get] at hget ⊢
    rw [show alistLookup (MemoryKeyValueStore.set d k' v')
        (MemoryKeyValueStore.actual_key k) = alistLookup d (MemoryKeyValueStore.actual_key k)
      from alistLookup_insert_ne _ _ hak]
    exact hget

/-- C8: write-then-read consistency of the overlay over the in-memory store:
when `set(name, value)` succeeds, a following `get(name)` with no intervening
delete returns exactly the value just written. -/
theorem dbmodel_set_then_get {V : Type} (m : DbModel V) (nm : String) (v : V)
    (m' : DbModel V) (h : DbModel.setitem m nm v = .ok m') :
    DbModel.getitem m' nm = .ok v := by
  cases hk : DbModel.key m nm with
  | error e => simp [DbModel.setitem, hk] at h
  | ok k =>
    have hm' : m' = {m with kvs := MemoryKeyValueStore.set m.kvs k v} := by
      have h2 := h
      simp [DbModel.setitem, hk] at h2
      exact h2.symm
    have hk' : DbModel.key m' nm = .ok k := by rw [hm']; exact hk
    rw [hm'] at hk' ⊢
    simp [DbModel.getitem, hk', mem_get_set_self]

/-- Witness for C8: setting the field "x" to 5 on an empty store and reading it
back. -/
theorem dbmodel_set_then_get_witness :
    DbModel.getitem
      (⟨[("usage.u", [("x", 5)])], ⟨"T", [⟨"x", ⟨.USAGE, false⟩⟩], none⟩,
        none, ⟨"u", "d"⟩⟩ : DbModel Nat) "x" = .ok 5 :=
  dbmodel_set_then_get
    (⟨[], ⟨"T", [⟨"x", ⟨.USAGE, false⟩⟩], none⟩, none, ⟨"u", "d"⟩⟩ : DbModel Nat)
    "x" 5
    (⟨[("usage.u", [("x", 5)])], ⟨"T", [⟨"x", ⟨.USAGE, false⟩⟩], none⟩,
      none, ⟨"u", "d"⟩⟩ : DbModel Nat) rfl

/-- Python `dict.update` on the association-list model: insert each binding of
`kw` in order, replacing in place. -/
def pyDictUpdate {κ α : Type} [DecidableEq κ] (d kw : List (κ × α)) : List (κ × α) :=
  kw.foldl (fun acc kv => alistInsert acc kv.1 kv.2) d

/-- The resolution loop of DbModel.update (src lines 244-246): build
`updated_dict` by resolving each name through `_key`; a `KeyError` aborts the
whole call before any write happens. -/
def resolveDict {V : Type} (m : DbModel V) :
    List (String × V) → List (Key × V) → Except PyErr (List (Key × V))
  | [], acc => .ok acc
  | (nm, v) :: rest, acc =>
    match DbModel.key m nm with
    | .error e => .error e
    | .ok k => resolveDict m rest (alistInsert acc k v)

/-- DbModel.update (src lines 237-248). `other` models the positional
`other_dict` argument and `kw` the keyword arguments.  The result pairs the
overlay outcome (the resolved dict handed to a single `set_many` call) with
the caller-visible final contents of `other`: Python mutates the caller's dict
through `other_dict.update(kwargs)` unless a falsy (empty) dict was replaced
by a fresh one via `other_dict = other_dict or {}`. -/
def DbModel.update {V : Type} (m : DbModel V) (other kw : List (String × V)) :
    Except PyErr (DbModel V) × List (String × V) :=
  let od := pyDictUpdate other kw
  let callerAfter := if other.isEmpty then other else od
  (match resolveDict m od [] with
   | .error e => .error e
   | .ok updated => .ok {m with kvs := MemoryKeyValueStore.set_many m.kvs updated},
   callerAfter)

theorem key_kvs_irrel {V : Type} (m : DbModel V) (d : MemoryKeyValueStore.Store V)
    (nm : String) : DbModel.key {m with kvs := d} nm = DbModel.key m nm := rfl

theorem key_field_name {V : Type} (m : DbModel V) (nm : String) (k : Key)
    (h : DbModel.key m nm = .ok k) : k.field_name = nm := by
  cases hg : getfield m.block_cls nm with
  | error e => simp [DbModel.key, hg] at h
  | ok f =>
    simp only [DbModel.key, hg, Except.ok.injEq] at h
    rw [← h]
    exact scopeKey_field_name _ _ _ _ _

theorem resolveDict_spec {V : Type} (m : DbModel V) :
    ∀ (other : List (String × V)) (acc D : List (Key × V)),
    resolveDict m other acc = .ok D →
    (acc.map (fun kv => kv.1.field_name) ++ other.map Prod.fst).Nodup →
    D.map (fun kv => kv.1.field_name) =
        acc.map (fun kv => kv.1.field_name) ++ other.map Prod.fst ∧
    (∀ kv ∈ acc, kv ∈ D) ∧
    (∀ nv ∈ other, ∃ k, DbModel.key m nv.1 = .ok k ∧ (k, nv.2) ∈ D) := by
  intro other
  induction other with
  | nil =>
    intro acc D h _
    simp only [resolveDict, Except.ok.injEq] at h
    subst h
    exact ⟨by simp, fun kv hkv => hkv, by simp⟩
  | cons nv rest ih =>
    intro acc D h hnd
    obtain ⟨nm, v⟩ := nv
    cases hk : DbModel.key m nm with
    | error e => simp [resolveDict, hk] at h
    | ok k =>
      simp only [resolveDict, hk] at h
      have hfn : k.field_name = nm := key_field_name m nm k hk
      have hnd_parts := List.nodup_append.mp hnd
      have hnm_acc : nm ∉ acc.map (fun kv => kv.1.field_name) := by
        intro hm
        exact hnd_parts.2.2 hm (List.mem_cons_self _ _)
      have hins : alistInsert acc k v = acc ++ [(k, v)] := by
        apply alistInsert_of_not_mem
        intro hm
        apply hnm_acc
        obtain ⟨kv, hkv, hkeq⟩ := List.mem_map.mp hm
        rw [← hfn]
        exact List.mem_map.mpr ⟨kv, hkv, by rw [hkeq]⟩
      rw [hins] at h
      have hnd' : ((acc ++ [(k, v)]).map (fun kv => kv.1.field_name) ++
          rest.map Prod.fst).Nodup := by
        simpa [hfn, List.append_assoc] using hnd
      obtain ⟨hmap, hsub, hres⟩ := ih (acc ++ [(k, v)]) D h hnd'
      refine ⟨?_, ?_, ?_⟩
      · rw [hmap]
        simp [hfn, List.append_assoc]
      · intro kv hkv
        exact hsub kv (List.mem_append_left _ hkv)
      · intro nv hnv
        rcases List.mem_cons.mp hnv with heq | hmem
        · rw [heq]
          exact ⟨k, hk, hsub (k, v)
            (List.mem_append_right _ (List.mem_singleton_self _))⟩
        · exact hres nv hmem

theorem mem_get_set_many_preserved {V : Type} :
    ∀ (rest : List (Key × V)) (d : MemoryKeyValueStore.Store V) (k : Key) (v : V),
    MemoryKeyValueStore.get d k = .ok v →
    (∀ kv ∈ rest, kv.1.field_name ≠ k.field_name) →
    MemoryKeyValueStore.get (MemoryKeyValueStore.set_many d rest) k = .ok v := by
  intro rest
  induction rest with
  | nil =>
    intro d k v h _
    exact h
  | cons kv0 rest ih =>
    intro d k v h hall
    rw [show MemoryKeyValueStore.set_many d (kv0 :: rest) =
      MemoryKeyValueStore.set_many (MemoryKeyValueStore.set d kv0.1 kv0.2) rest from rfl]
    exact ih _ k v
      (mem_get_set_other d k kv0.1 v kv0.2 (hall kv0 (List.mem_cons_self _ _)) h)
      (fun kv hkv => hall kv (List.mem_cons_of_mem _ hkv))

theorem mem_get_set_many {V : Type} :
    ∀ (D : List (Key × V)) (d : MemoryKeyValueStore.Store V) (k : Key) (v : V),
    (k, v) ∈ D → (D.map (fun kv => kv.1.field_name)).Nodup →
    MemoryKeyValueStore.get (MemoryKeyValueStore.set_many d D) k = .ok v := by
  intro D
  induction D with
  | nil =>
    intro d k v h _
    simp at h
  | cons kv0 rest ih =>
    intro d k v hmem hnd
    rw [show MemoryKeyValueStore.set_many d (kv0 :: rest) =
      MemoryKeyValueStore.set_many (MemoryKeyValueStore.set d kv0.1 kv0.2) rest from rfl]
    rcases List.mem_cons.mp hmem with heq | hmem'
    · have h0 : MemoryKeyValueStore.get (MemoryKeyValueStore.set d kv0.1 kv0.2) k = .ok v := by
        rw [← heq]
        exact mem_get_set_self d k v
      apply mem_get_set_many_preserved rest _ k v h0
      intro kv hkv hceq
      have hk0 : kv0.1.field_name = k.field_name := by rw [← heq]
      have hnotin := (List.nodup_cons.mp hnd).1
      apply hnotin
      show kv0.1.field_name ∈ List.map (fun kv => kv.1.field_name) rest
      rw [hk0, ← hceq]
      exact List.mem_map.mpr ⟨kv, hkv, rfl⟩
    · exact ih _ k v hmem' (List.nodup_cons.mp hnd).2

/-- C9: on a mapping of declared field names (distinct, as dict keys are),
`update` resolves every name to a storage key and issues one `set_many` call
with the whole resolved dict, after which `get` on each updated name returns
the value written for it. -/
theorem dbmodel_update_batch_and_get {V : Type} (m : DbModel V)
    (mapping : List (String × V)) (m' : DbModel V)
    (hnd : (mapping.map Prod.fst).Nodup)
    (h : (DbModel.update m mapping []).1 = .ok m') :
    (∃ D, resolveDict m mapping [] = .ok D ∧
      m'.kvs = MemoryKeyValueStore.set_many m.kvs D) ∧
    ∀ nv ∈ mapping, DbModel.getitem m' nv.1 = .ok nv.2 := by
  cases hres : resolveDict m mapping [] with
  | error e =>
    exfalso
    simp [DbModel.update, pyDictUpdate, hres] at h
  | ok D =>
    have hm' : m' = {m with kvs := MemoryKeyValueStore.set_many m.kvs D} := by
      have h2 := h
      simp [DbModel.update, pyDictUpdate, hres] at h2
      exact h2.symm
    obtain ⟨hmap, _, hres_mem⟩ :=
      resolveDict_spec m mapping [] D hres (by simpa using hnd)
    refine ⟨⟨D, rfl, by rw [hm']⟩, ?_⟩
    intro nv hnv
    obtain ⟨k, hk, hkD⟩ := hres_mem nv hnv
    have hDnd : (D.map (fun kv => kv.1.field_name)).Nodup := by
      rw [hmap]
      simpa using hnd
    have hget := mem_get_set_many D m.kvs k nv.2 hkD hDnd
    have hk' : DbModel.key m' nv.1 = .ok k := by rw [hm', key_kvs_irrel]; exact hk
    rw [hm'] at hk' ⊢
    simp only [DbModel.getitem, hk']
    exact hget

/-- Witness for C9: updating fields "x" and "y" on an empty store and reading
both back. -/
theorem dbmodel_update_batch_and_get_witness :
    (∃ D, resolveDict
        (⟨[], ⟨"T", [⟨"x", ⟨.USAGE, false⟩⟩, ⟨"y", ⟨.USAGE, false⟩⟩], none⟩,
          none, ⟨"u", "d"⟩⟩ : DbModel Nat) [("x", 1), ("y", 2)] [] = .ok D ∧
      (⟨[("usage.u", [("x", 1), ("y", 2)])],
          ⟨"T", [⟨"x", ⟨.USAGE, false⟩⟩, ⟨"y", ⟨.USAGE, false⟩⟩], none⟩,
          none, ⟨"u", "d"⟩⟩ : DbModel Nat).kvs =
        MemoryKeyValueStore.set_many
          (⟨[], ⟨"T", [⟨"x", ⟨.USAGE, false⟩⟩, ⟨"y", ⟨.USAGE, false⟩⟩], none⟩,
            none, ⟨"u", "d"⟩⟩ : DbModel Nat).kvs D) ∧
    ∀ nv ∈ [("x", 1), ("y", 2)],
      DbModel.getitem
        (⟨[("usage.u", [("x", 1), ("y", 2)])],
          ⟨"T", [⟨"x", ⟨.USAGE, false⟩⟩, ⟨"y", ⟨.USAGE, false⟩⟩], none⟩,
          none, ⟨"u", "d"⟩⟩ : DbModel Nat) nv.1 = .ok nv.2 :=
  dbmodel_update_batch_and_get
    (⟨[], ⟨"T", [⟨"x", ⟨.USAGE, false⟩⟩, ⟨"y", ⟨.USAGE, false⟩⟩], none⟩,
      none, ⟨"u", "d"⟩⟩ : DbModel Nat) [("x", 1), ("y", 2)]
    (⟨[("usage.u", [("x", 1), ("y", 2)])],
      ⟨"T", [⟨"x", ⟨.USAGE, false⟩⟩, ⟨"y", ⟨.USAGE, false⟩⟩], none⟩,
      none, ⟨"u", "d"⟩⟩ : DbModel Nat) (by decide) rfl

theorem lookup_pyDictUpdate_not_mem {κ α : Type} [DecidableEq κ] :
    ∀ (rest d : List (κ × α)) (k : κ), k ∉ rest.map Prod.fst →
    alistLookup (pyDictUpdate d rest) k = alistLookup d k := by
  intro rest
  induction rest with
  | nil =>
    intro d k _
    rfl
  | cons kv0 rest ih =>
    intro d k hk
    simp only [List.map_cons, List.mem_cons] at hk
    push_neg at hk
    rw [show pyDictUpdate d (kv0 :: rest) =
      pyDictUpdate (alistInsert d kv0.1 kv0.2) rest from rfl]
    rw [ih _ k hk.2]
    exact alistLookup_insert_ne d kv0.2 (Ne.symm hk.1)

theorem lookup_pyDictUpdate {κ α : Type} [DecidableEq κ] :
    ∀ (kw d : List (κ × α)), (kw.map Prod.fst).Nodup →
    ∀ kv ∈ kw, alistLookup (pyDictUpdate d kw) kv.1 = some kv.2 := by
  intro kw
  induction kw with
  | nil =>
    intro d _ kv h
    simp at h
  | cons kv0 rest ih =>
    intro d hnd kv hmem
    rw [show pyDictUpdate d (kv0 :: rest) =
      pyDictUpdate (alistInsert d kv0.1 kv0.2) rest from rfl]
    rcases List.mem_cons.mp hmem with heq | hmem'
    · subst heq
      rw [lookup_pyDictUpdate_not_mem rest _ kv.1 (List.nodup_cons.mp hnd).1]
      exact alistLookup_insert_self d kv.1 kv.2
    · exact ih _ (List.nodup_cons.mp hnd).2 kv hmem'

/-- C10: called with a non-empty `other_dict`, `update` mutates the caller's
dict: `other_dict.update(kwargs)` runs on the caller's object before the batch
write, so after the call the caller's dict equals its dict-update with the
keyword entries, each keyword entry being readable from it. -/
theorem dbmodel_update_mutates_caller {V : Type} (m : DbModel V)
    (other kw : List (String × V)) (hother : other ≠ [])
    (hndkw : (kw.map Prod.fst).Nodup) :
    (DbModel.update m other kw).2 = pyDictUpdate other kw ∧
    ∀ kv ∈ kw, alistLookup (DbModel.update m other kw).2 kv.1 = some kv.2 := by
  have h2 : (DbModel.update m other kw).2 = pyDictUpdate other kw := by
    cases other with
    | nil => exact absurd rfl hother
    | cons a l => rfl
  refine ⟨h2, ?_⟩
  intro kv hkv
  rw [h2]
  exact lookup_pyDictUpdate kw other hndkw kv hkv

/-- Witness for C10: caller passes a dict holding "x" and the keyword entry "y"
lands in it. -/
theorem dbmodel_update_mutates_caller_witness :
    (DbModel.update
        (⟨[], ⟨"T", [⟨"x", ⟨.USAGE, false⟩⟩, ⟨"y", ⟨.USAGE, false⟩⟩], none⟩,
          none, ⟨"u", "d"⟩⟩ : DbModel Nat) [("x", 1)] [("y", 2)]).2 =
      pyDictUpdate [("x", 1)] [("y", 2)] ∧
    ∀ kv ∈ [("y", 2)],
      alistLookup (DbModel.update
        (⟨[], ⟨"T", [⟨"x", ⟨.USAGE, false⟩⟩, ⟨"y", ⟨.USAGE, false⟩⟩], none⟩,
          none, ⟨"u", "d"⟩⟩ : DbModel Nat) [("x", 1)] [("y", 2)]).2 kv.1 = some kv.2 :=
  dbmodel_update_mutates_caller
    (⟨[], ⟨"T", [⟨"x", ⟨.USAGE, false⟩⟩, ⟨"y", ⟨.USAGE, false⟩⟩], none⟩,
      none, ⟨"u", "d"⟩⟩ : DbModel Nat) [("x", 1)] [("y", 2)]
    (by decide) (by decide)

/-- A lexical token of the path language, as produced by the RegexLexer of
`Runtime.querypath` (src lines 389-397).  The `atword` payload carries the
matched text without its leading `@`, mirroring the `toktext[1:]` the parser
passes to `attr`. -/
inductive Tok where
  | dotdot
  | dot
  | slashslash
  | slash
  | atword (w : String)
  | word (w : String)
  | err (c : Char)
deriving DecidableEq

/-- A character of the regex class `\w`: ASCII letters, digits and underscore
(Python 2 `re` without `re.UNICODE`). -/
def isWordChar (c : Char) : Bool := c.isAlphanum || c == '_'

/-- Consume the longest run of `\w` characters (the greedy tail of `\w+`). -/
def takeWord : List Char → List Char × List Char
  | [] => ([], [])
  | c :: rest =>
    if isWordChar c then
      let p := takeWord rest
      (c :: p.1, p.2)
    else ([], c :: rest)

/-- One pass of the RegexLexer with the alternatives tried in declaration
order: `\.\.`, `\.`, `//`, `/`, `@\w+`, `\w+`, then any single character as an
`err` token.  The fuel only bounds the recursion; every step consumes at least
one character, so `lex` passes the input length as fuel. -/
def lexAux : Nat → List Char → List Tok
  | 0, _ => []
  | _ + 1, [] => []
  | n + 1, '.' :: '.' :: rest => .dotdot :: lexAux n rest
  | n + 1, '.' :: rest => .dot :: lexAux n rest
  | n + 1, '/' :: '/' :: rest => .slashslash :: lexAux n rest
  | n + 1, '/' :: rest => .slash :: lexAux n rest
  | n + 1, '@' :: c :: rest =>
    if isWordChar c then
      let p := takeWord rest
      .atword (String.mk (c :: p.1)) :: lexAux n p.2
    else .err '@' :: lexAux n (c :: rest)
  | n + 1, c :: rest =>
    if isWordChar c then
      let p := takeWord rest
      .word (String.mk (c :: p.1)) :: lexAux n p.2
    else .err c :: lexAux n rest

/-- RegexLexer.lex applied to a path (src lines 543-547). -/
def lex (path : String) : List Tok := lexAux path.data.length path.data

/-- The parser states of `Runtime.querypath`: `ROOT, SEP, WORD, FINAL = range(4)`. -/
inductive PState where
  | root
  | sep
  | word
  | final
deriving DecidableEq

/-- Failure modes of `Runtime.querypath`: `BadPath`, and the
`NotImplementedError` raised for a leading `//` or `/`. -/
inductive PathError where
  | badPath
  | notImplemented
deriving DecidableEq

/-- The externally-supplied tree-query object interface (spec section 6): five
chainable navigation operations over some query type. -/
structure QueryOps (Q : Type) where
  parent : Q → Q
  descendants : Q → Q
  children : Q → Q
  tagged : String → Q → Q
  attr : String → Q → Q

/-- The token loop of `Runtime.querypath` (src lines 398-442): the four-state
machine driving the query object one token at a time. -/
def runPath {Q : Type} (ops : QueryOps Q) : List Tok → PState → Q → Except PathError Q
  | [], _, q => .ok q
  | t :: ts, st, q =>
    if st = .final then .error .badPath
    else
      match t with
      | .dotdot =>
        if st = .word then .error .badPath
        else runPath ops ts .word (ops.parent q)
      | .dot =>
        if st = .word then .error .badPath
        else runPath ops ts .word q
      | .slashslash =>
        if st = .sep then .error .badPath
        else if st = .root then .error .notImplemented
        else runPath ops ts .sep (ops.descendants q)
      | .slash =>
        if st = .sep then .error .badPath
        else if st = .root then .error .notImplemented
        else runPath ops ts .sep q
      | .atword w =>
        if st ≠ .sep then .error .badPath
        else runPath ops ts .final (ops.attr w q)
      | .word w =>
        if st ≠ .sep then .error .badPath
        else runPath ops ts .word (ops.tagged w (ops.children q))
      | .err _ => .error .badPath

/-- Runtime.querypath (src lines 380-442): tokenize the path and run the state
machine from ROOT on the supplied query object. -/
def querypath {Q : Type} (ops : QueryOps Q) (q : Q) (path : String) :
    Except PathError Q :=
  runPath ops (lex path) .root q

/-- Modelled from the spec: a generic tagged-node tree with attributes, the
shape navigated by the externally-supplied tree-query object (spec sections 3
and 6). -/
inductive XTree where
  | node (tag : String) (attrs : List (String × String)) (kids : List XTree)

def XTree.tag : XTree → String
  | .node t _ _ => t

def XTree.attrs : XTree → List (String × String)
  | .node _ a _ => a

def XTree.kids : XTree → List XTree
  | .node _ _ k => k

/-- The subtree at a child-index path, when it exists. -/
def nodeAt : XTree → List Nat → Option XTree
  | t, [] => some t
  | t, i :: rest =>
    match t.kids.get? i with
    | none => none
    | some c => nodeAt c rest

mutual

/-- Child-index paths of all strict descendants of a node. -/
def descPos : XTree → List (List Nat)
  | .node _ _ ks => descPosList 0 ks

/-- Child-index paths of the descendants contributed by a child list starting
at index `i`. -/
def descPosList : Nat → List XTree → List (List Nat)
  | _, [] => []
  | i, c :: cs => ([i] :: (descPos c).map (fun p => i :: p)) ++ descPosList (i + 1) cs

end

/-- The value a tree-query holds: a selection of node positions, or attribute
strings after an `attr` step. -/
inductive TQVal where
  | nodes (ps : List (List Nat))
  | strs (ss : List String)

/-- Modelled from the spec: a concrete tree-query object over one root tree,
tracking current position (spec section 6). -/
structure TreeQ where
  root : XTree
  val : TQVal

def tqParent (q : TreeQ) : TreeQ :=
  match q.val with
  | .nodes ps =>
    ⟨q.root, .nodes (ps.filterMap (fun p => if p = [] then none else some p.dropLast))⟩
  | .strs _ => ⟨q.root, .nodes []⟩

def tqDescendants (q : TreeQ) : TreeQ :=
  match q.val with
  | .nodes ps =>
    ⟨q.root, .nodes ((ps.map (fun p =>
      match nodeAt q.root p with
      | some t => (descPos t).map (fun s => p ++ s)
      | none => [])).flatten)⟩
  | .strs _ => ⟨q.root, .nodes []⟩

def tqChildren (q : TreeQ) : TreeQ :=
  match q.val with
  | .nodes ps =>
    ⟨q.root, .nodes ((ps.map (fun p =>
      match nodeAt q.root p with
      | some t => (List.range t.kids.length).map (fun i => p ++ [i])
      | none => [])).flatten)⟩
  | .strs _ => ⟨q.root, .nodes []⟩

def tqTagged (tg : String) (q : TreeQ) : TreeQ :=
  match q.val with
  | .nodes ps =>
    ⟨q.root, .nodes (ps.filter (fun p =>
      match nodeAt q.root p with
      | some t => t.tag == tg
      | none => false))⟩
  | .strs _ => ⟨q.root, .nodes []⟩

def tqAttr (a : String) (q : TreeQ) : TreeQ :=
  match q.val with
  | .nodes ps =>
    ⟨q.root, .strs (ps.filterMap (fun p =>
      match nodeAt q.root p with
      | some t => alistLookup t.attrs a
      | none => none))⟩
  | .strs _ => ⟨q.root, .strs []⟩

/-- The concrete tree-query operations. -/
def treeOps : QueryOps TreeQ :=
  ⟨tqParent, tqDescendants, tqChildren, tqTagged, tqAttr⟩

/-- C2 counterexample: against a query whose current node has exactly one child
tagged `child` carrying `attr = "v"`, the path `"child/@attr"` does not
resolve: the leading bare word is consumed in state ROOT, and the parser
raises `BadPath` (state table: only `.` and `..` are allowed first). -/
theorem querypath_child_attr_fails :
    querypath treeOps
      ⟨XTree.node "r" [] [XTree.node "child" [("attr", "v")] []], .nodes [[]]⟩
      "child/@attr" = .error .badPath := rfl

theorem nodeAt_single (rt : String) (ra : List (String × String)) (ks : List XTree)
    (i : Nat) : nodeAt (XTree.node rt ra ks) [i] = ks.get? i := by
  show (match ks.get? i with | none => none | some c => nodeAt c []) = ks.get? i
  cases h : ks.get? i with
  | none => rfl
  | some c => rfl

theorem filter_range_eq_singleton {P : Nat → Bool} :
    ∀ (n j : Nat), j < n → P j = true → (∀ i, i < n → i ≠ j → P i = false) →
    (List.range n).filter P = [j] := by
  intro n
  induction n with
  | zero =>
    intro j hj _ _
    exact absurd hj (Nat.not_lt_zero j)
  | succ n ih =>
    intro j hj hPj hothers
    rw [List.range_succ, List.filter_append]
    by_cases hjn : j = n
    · subst hjn
      have h1 : (List.range j).filter P = [] := by
        rw [List.filter_eq_nil_iff]
        intro a ha
        have halt : a < j := List.mem_range.mp ha
        simp [hothers a (Nat.lt_succ_of_lt halt) (Nat.ne_of_lt halt)]
      rw [h1]
      simp [List.filter_cons, hPj]
    · have hjlt : j < n := Nat.lt_of_le_of_ne (Nat.lt_succ_iff.mp hj) hjn
      have h1 := ih j hjlt hPj (fun i hi hij => hothers i (Nat.lt_succ_of_lt hi) hij)
      rw [h1]
      have hPn : P n = false := hothers n (Nat.lt_succ_self n) (Ne.symm hjn)
      simp [List.filter_cons, hPn]

theorem filter_singleton_index (p : XTree → Bool) :
    ∀ (ks : List XTree) (c : XTree), ks.filter p = [c] →
    ∃ j, j < ks.length ∧ ks.get? j = some c ∧ p c = true ∧
      ∀ i u, i ≠ j → ks.get? i = some u → p u = false := by
  intro ks
  induction ks with
  | nil =>
    intro c h
    simp at h
  | cons t ts ih =>
    intro c h
    cases ht : p t with
    | true =>
      simp [List.filter_cons, ht] at h
      obtain ⟨hc1, hc2⟩ := h
      subst hc1
      refine ⟨0, Nat.succ_pos _, rfl, ht, ?_⟩
      intro i u hij hget
      cases i with
      | zero => exact absurd rfl hij
      | succ i2 =>
        have hget2 : ts.get? i2 = some u := hget
        have hmem : u ∈ ts := List.get?_mem hget2
        exact hc2 u hmem
    | false =>
      simp [List.filter_cons, ht] at h
      obtain ⟨j, hjl, hjg, hpc, hoth⟩ := ih c h
      refine ⟨j + 1, Nat.succ_lt_succ hjl, hjg, hpc, ?_⟩
      intro i u hij hget
      cases i with
      | zero =>
        have hut : t = u := by simpa using hget
        rw [← hut]
        exact ht
      | succ i2 =>
        exact hoth i2 u (fun he => hij (by rw [he])) hget

/-- C2 amended: a path must start with `.` or `..` (a leading bare word is
`BadPath`); the equivalent path `"./child/@attr"` against a query whose current
node has exactly one child tagged `child` carrying `attr = "v"` drives the
query through `children().tagged("child")` and then `attr("attr")` and
resolves to `"v"`. -/
theorem querypath_dot_child_attr (rt : String) (ra : List (String × String))
    (ks : List XTree) (c : XTree) (v : String)
    (hc : ks.filter (fun t => t.tag == "child") = [c])
    (hv : alistLookup c.attrs "attr" = some v) :
    querypath treeOps ⟨XTree.node rt ra ks, .nodes [[]]⟩ "./child/@attr" =
      .ok ⟨XTree.node rt ra ks, .strs [v]⟩ := by
  have hrun : querypath treeOps ⟨XTree.node rt ra ks, .nodes [[]]⟩ "./child/@attr" =
      .ok (tqAttr "attr" (tqTagged "child"
        (tqChildren ⟨XTree.node rt ra ks, .nodes [[]]⟩))) := rfl
  rw [hrun]
  have hch : tqChildren ⟨XTree.node rt ra ks, .nodes [[]]⟩ =
      ⟨XTree.node rt ra ks, .nodes ((List.range ks.length).map (fun i => [i]))⟩ := by
    simp [tqChildren, nodeAt, XTree.kids]
  rw [hch]
  obtain ⟨j, hjlt, hjget, hpc, hothers⟩ :=
    filter_singleton_index (fun t => t.tag == "child") ks c hc
  have hfilter : ((List.range ks.length).map (fun i : Nat => [i])).filter (fun p =>
      match nodeAt (XTree.node rt ra ks) p with
      | some t => t.tag == "child"
      | none => false) = [[j]] := by
    rw [List.filter_map]
    have hf : (List.range ks.length).filter ((fun p =>
        match nodeAt (XTree.node rt ra ks) p with
        | some t => t.tag == "child"
        | none => false) ∘ (fun i : Nat => [i])) = [j] := by
      apply filter_range_eq_singleton ks.length j hjlt
      · show (match nodeAt (XTree.node rt ra ks) [j] with
          | some t => t.tag == "child"
          | none => false) = true
        rw [nodeAt_single, hjget]
        exact hpc
      · intro i hi hij
        show (match nodeAt (XTree.node rt ra ks) [i] with
          | some t => t.tag == "child"
          | none => false) = false
        rw [nodeAt_single]
        cases hget : ks.get? i with
        | none => rfl
        | some u => exact hothers i u hij hget
    rw [hf]
    rfl
  have htag : tqTagged "child"
      ⟨XTree.node rt ra ks, .nodes ((List.range ks.length).map (fun i => [i]))⟩ =
      ⟨XTree.node rt ra ks, .nodes [[j]]⟩ := by
    simp only [tqTagged]
    rw [hfilter]
  rw [htag]
  have hx : (match nodeAt (XTree.node rt ra ks) [j] with
      | some t => alistLookup t.attrs "attr"
      | none => none) = some v := by
    rw [nodeAt_single, hjget]
    exact hv
  simp only [tqAttr]
  rw [show ([[j]] : List (List Nat)).filterMap (fun p =>
      match nodeAt (XTree.node rt ra ks) p with
      | some t => alistLookup t.attrs "attr"
      | none => none) = [v] by simp [List.filterMap_cons, hx]]

/-- Witness for the amended C2: the concrete tree with one child tagged `child`
carrying `attr = "v"`. -/
theorem querypath_dot_child_attr_witness :
    querypath treeOps
      ⟨XTree.node "r" [] [XTree.node "child" [("attr", "v")] []], .nodes [[]]⟩
      "./child/@attr" =
      .ok ⟨XTree.node "r" [] [XTree.node "child" [("attr", "v")] []], .strs ["v"]⟩ :=
  querypath_dot_child_attr "r" [] [XTree.node "child" [("attr", "v")] []]
    (XTree.node "child" [("attr", "v")] []) "v" rfl rfl
